import Mathlib

/-!
Verification of the particle physics core of the `3d-brain-interactive`
repository against its specification.

Two engine variants exist in the sources:

* `src/src/App.tsx` — the continuous wave-field variant: per frame, each
  particle's velocity accumulates an interaction force (when a pointer
  interaction is active), a magnetic restoring force toward the rest
  position, friction, and the position buffer additionally receives a small
  "breathing" displacement along the particle's radial direction.
* `src/unnamed/part_001` — the single-shot impulse variant: a mouse press
  adds a decaying offset to every particle within the interaction radius of
  the hit vertex (measured on rest positions), and every frame each
  particle's position is linearly eased toward `originalPosition + offset`
  (or plain `originalPosition` when no offset is active) while the offset is
  multiplied by a decay factor and removed once small.

JavaScript numbers are modelled as real numbers; `THREE.Vector3` is
modelled by the structure `V3` below together with the exact operations used
by the code (`add`, `sub`, `multiplyScalar`, `lengthSq`, `length`,
`normalize` with three.js's `divideScalar(length || 1)` zero-guard, `lerp`,
`distanceToSquared`, `dot`).
-/

@[ext]
structure V3 where
  x : ℝ
  y : ℝ
  z : ℝ

namespace V3

instance : Zero V3 := ⟨⟨0, 0, 0⟩⟩
instance : Add V3 := ⟨fun a b => ⟨a.x + b.x, a.y + b.y, a.z + b.z⟩⟩
instance : Sub V3 := ⟨fun a b => ⟨a.x - b.x, a.y - b.y, a.z - b.z⟩⟩
instance : Neg V3 := ⟨fun a => ⟨-a.x, -a.y, -a.z⟩⟩
instance : SMul ℝ V3 := ⟨fun c a => ⟨c * a.x, c * a.y, c * a.z⟩⟩

@[simp] theorem zero_x : (0 : V3).x = 0 := rfl
@[simp] theorem zero_y : (0 : V3).y = 0 := rfl
@[simp] theorem zero_z : (0 : V3).z = 0 := rfl
@[simp] theorem add_x (a b : V3) : (a + b).x = a.x + b.x := rfl
@[simp] theorem add_y (a b : V3) : (a + b).y = a.y + b.y := rfl
@[simp] theorem add_z (a b : V3) : (a + b).z = a.z + b.z := rfl
@[simp] theorem sub_x (a b : V3) : (a - b).x = a.x - b.x := rfl
@[simp] theorem sub_y (a b : V3) : (a - b).y = a.y - b.y := rfl
@[simp] theorem sub_z (a b : V3) : (a - b).z = a.z - b.z := rfl
@[simp] theorem smul_x (c : ℝ) (a : V3) : (c • a).x = c * a.x := rfl
@[simp] theorem smul_y (c : ℝ) (a : V3) : (c • a).y = c * a.y := rfl
@[simp] theorem smul_z (c : ℝ) (a : V3) : (c • a).z = c * a.z := rfl

/-- `THREE.Vector3.dot`. -/
def dot (a b : V3) : ℝ := a.x * b.x + a.y * b.y + a.z * b.z

/-- `THREE.Vector3.lengthSq`. -/
def lengthSq (a : V3) : ℝ := a.x * a.x + a.y * a.y + a.z * a.z

/-- `THREE.Vector3.length`. -/
noncomputable def length (a : V3) : ℝ := Real.sqrt a.lengthSq

/-- `THREE.Vector3.distanceToSquared`. -/
def distanceToSquared (a b : V3) : ℝ := (a - b).lengthSq

/-- `THREE.Vector3.distanceTo`. -/
noncomputable def distanceTo (a b : V3) : ℝ := (a - b).length

/-- `THREE.Vector3.normalize`, i.e. `divideScalar(this.length() || 1)`:
dividing by `1` when the length is zero leaves the (zero) vector unchanged. -/
noncomputable def normalize (a : V3) : V3 :=
  if a.length = 0 then a else (1 / a.length) • a

/-- `THREE.Vector3.lerp(v, alpha)`: each component moves a fraction `alpha`
of the way toward `v`. -/
def lerp (a v : V3) (alpha : ℝ) : V3 := a + alpha • (v - a)

theorem lengthSq_nonneg (a : V3) : 0 ≤ a.lengthSq := by
  have hx := mul_self_nonneg a.x
  have hy := mul_self_nonneg a.y
  have hz := mul_self_nonneg a.z
  unfold lengthSq; linarith

theorem length_nonneg (a : V3) : 0 ≤ a.length := Real.sqrt_nonneg _

theorem sq_length (a : V3) : a.length * a.length = a.lengthSq := by
  unfold length
  exact Real.mul_self_sqrt a.lengthSq_nonneg

theorem lengthSq_eq_zero_iff (a : V3) : a.lengthSq = 0 ↔ a = 0 := by
  constructor
  · intro h
    have hx := mul_self_nonneg a.x
    have hy := mul_self_nonneg a.y
    have hz := mul_self_nonneg a.z
    unfold lengthSq at h
    have hx0 : a.x * a.x = 0 := by linarith
    have hy0 : a.y * a.y = 0 := by linarith
    have hz0 : a.z * a.z = 0 := by linarith
    ext <;> simpa using mul_self_eq_zero.mp (by assumption)
  · intro h; subst h; simp [lengthSq]

theorem length_eq_zero_iff (a : V3) : a.length = 0 ↔ a = 0 := by
  unfold length
  rw [Real.sqrt_eq_zero a.lengthSq_nonneg]
  exact a.lengthSq_eq_zero_iff

theorem lengthSq_pos_iff (a : V3) : 0 < a.lengthSq ↔ a ≠ 0 := by
  constructor
  · intro h hEq
    rw [hEq] at h
    simp [lengthSq] at h
  · intro h
    rcases lt_or_eq_of_le a.lengthSq_nonneg with h' | h'
    · exact h'
    · exact absurd (a.lengthSq_eq_zero_iff.mp h'.symm) h

theorem length_pos_iff (a : V3) : 0 < a.length ↔ a ≠ 0 := by
  constructor
  · intro h hEq
    rw [hEq] at h
    simp [length, lengthSq] at h
  · intro h
    rcases lt_or_eq_of_le a.length_nonneg with h' | h'
    · exact h'
    · exact absurd (a.length_eq_zero_iff.mp h'.symm) h

theorem lengthSq_smul (c : ℝ) (a : V3) :
    (c • a).lengthSq = c ^ 2 * a.lengthSq := by
  unfold lengthSq; simp; ring

theorem length_smul (c : ℝ) (a : V3) :
    (c • a).length = |c| * a.length := by
  unfold length
  rw [lengthSq_smul, Real.sqrt_mul (sq_nonneg c), Real.sqrt_sq_eq_abs]

theorem dot_smul_left (c : ℝ) (a b : V3) :
    dot (c • a) b = c * dot a b := by
  unfold dot; simp; ring

theorem dot_self (a : V3) : dot a a = a.lengthSq := rfl

theorem normalize_length (a : V3) (h : a ≠ 0) : a.normalize.length = 1 := by
  have hl : 0 < a.length := a.length_pos_iff.mpr h
  unfold normalize
  rw [if_neg (ne_of_gt hl), length_smul, abs_of_pos (by positivity)]
  field_simp

theorem normalize_eq (a : V3) (h : a ≠ 0) :
    a.normalize = (1 / a.length) • a := by
  have hl : a.length ≠ 0 := fun h0 => h (a.length_eq_zero_iff.mp h0)
  unfold normalize
  rw [if_neg hl]

@[simp] theorem normalize_zero : (0 : V3).normalize = 0 := by
  unfold normalize
  simp [length, lengthSq]

theorem comp_sq_le_lengthSq (a : V3) :
    a.x ^ 2 ≤ a.lengthSq ∧ a.y ^ 2 ≤ a.lengthSq ∧ a.z ^ 2 ≤ a.lengthSq := by
  have hx := mul_self_nonneg a.x
  have hy := mul_self_nonneg a.y
  have hz := mul_self_nonneg a.z
  unfold lengthSq
  refine ⟨?_, ?_, ?_⟩ <;> nlinarith

/-- Every component of a normalized vector has square at most `1`
(this also covers three.js's zero-vector guard, which returns the zero
vector unchanged). -/
theorem normalize_comp_sq_le_one (a : V3) :
    a.normalize.x ^ 2 ≤ 1 ∧ a.normalize.y ^ 2 ≤ 1 ∧ a.normalize.z ^ 2 ≤ 1 := by
  by_cases h : a = 0
  · subst h; norm_num
  · rw [a.normalize_eq h]
    have hl : 0 < a.length := a.length_pos_iff.mpr h
    have hsq : a.length * a.length = a.lengthSq := a.sq_length
    have hc := a.comp_sq_le_lengthSq
    have hinv : (1 / a.length) ^ 2 * a.lengthSq = 1 := by
      rw [← hsq]
      field_simp
      ring
    have hnn : 0 ≤ (1 / a.length) ^ 2 := sq_nonneg _
    refine ⟨?_, ?_, ?_⟩
    · simp only [smul_x]
      calc (1 / a.length * a.x) ^ 2 = (1 / a.length) ^ 2 * a.x ^ 2 := by ring
        _ ≤ (1 / a.length) ^ 2 * a.lengthSq := by
            exact mul_le_mul_of_nonneg_left hc.1 hnn
        _ = 1 := hinv
    · simp only [smul_y]
      calc (1 / a.length * a.y) ^ 2 = (1 / a.length) ^ 2 * a.y ^ 2 := by ring
        _ ≤ (1 / a.length) ^ 2 * a.lengthSq := by
            exact mul_le_mul_of_nonneg_left hc.2.1 hnn
        _ = 1 := hinv
    · simp only [smul_z]
      calc (1 / a.length * a.z) ^ 2 = (1 / a.length) ^ 2 * a.z ^ 2 := by ring
        _ ≤ (1 / a.length) ^ 2 * a.lengthSq := by
            exact mul_le_mul_of_nonneg_left hc.2.2 hnn
        _ = 1 := hinv
end V3

/-! ## Physics constants

From `src/src/App.tsx` (wave-field variant) and `src/unnamed/part_001`
(impulse variant). -/

noncomputable def WAVE_STRENGTH : ℝ := 3.0
noncomputable def WAVE_SPEED : ℝ := 0.15
noncomputable def MAGNETIC_FORCE : ℝ := 0.08
noncomputable def FRICTION : ℝ := 0.92
noncomputable def INTERACTION_RADIUS : ℝ := 2.5
noncomputable def SWIRL_STRENGTH : ℝ := 0.3
noncomputable def TURBULENCE : ℝ := 0.4

noncomputable def PUSH_STRENGTH : ℝ := 0.8
noncomputable def LERP_FACTOR : ℝ := 0.08
noncomputable def INTERACTION_RADIUS_SQ : ℝ := 1.5
noncomputable def DECAY_FACTOR : ℝ := 0.95

/-! ## Shared degenerate-direction fallback

Both variants substitute `(Math.random()-0.5, Math.random()-0.5,
Math.random()-0.5).normalize()` when the push direction would be the zero
vector (`src/src/App.tsx` line 360, `src/unnamed/part_001` line 129).  The
random draw is passed in explicitly as `rnd` (components in `[0,1)`). -/

noncomputable def fallbackDirection (rnd : V3) : V3 :=
  (V3.mk (rnd.x - 0.5) (rnd.y - 0.5) (rnd.z - 0.5)).normalize

/-! ## Wave-field variant (`src/src/App.tsx`) -/

/-- Per-particle physics record of the wave-field variant
(`interface ParticlePhysics` in `src/src/App.tsx`). -/
structure ParticlePhysics where
  velocity : V3
  originalPosition : V3
  offset : V3
  wavePhase : ℝ
  turbulence : V3

/-- Mutable interaction / simulation state of the wave-field variant: the
refs of `src/src/App.tsx` that the event handlers and the frame loop share.
`particlePhysics` is the `Map<number, ParticlePhysics>`; `positions` is the
geometry's position buffer, one `V3` per particle index. -/
structure WaveState where
  particlePhysics : ℕ → Option ParticlePhysics
  positions : ℕ → V3
  isInteracting : Bool
  mousePosition : ℝ × ℝ
  previousMousePosition : ℝ × ℝ
  mouseVelocity : ℝ × ℝ
  interactionPoint : Option V3
  waveTime : ℝ

/-- `handleInteractionEnd` of `src/src/App.tsx` (lines 106–109): it sets
`isInteractingRef.current = false` and `mouseVelocityRef.current.set(0, 0)`
and changes nothing else (in particular, `interactionPointRef` keeps its
value and no particle data is written). -/
def handleInteractionEnd (s : WaveState) : WaveState :=
  { s with isInteracting := false, mouseVelocity := (0, 0) }

/-- The velocity increment the interaction branch of the `animate` loop in
`src/src/App.tsx` (lines 349–381) adds to a particle: zero unless an
interaction point exists and `isInteracting` holds and the particle's
`originalPosition` is within `INTERACTION_RADIUS` of the (local-space)
interaction point; otherwise `0.1` times the combined wave, swirl and
turbulence force.  `localPoint` is the interaction point after
`points.worldToLocal`; `rnd` is the random draw used only by the
degenerate-direction fallback. -/
noncomputable def waveInteractionForce (interacting : Bool) (localPoint : Option V3)
    (mouseVel : ℝ × ℝ) (waveTime : ℝ) (rnd orig turb : V3) : V3 :=
  match localPoint, interacting with
  | some lip, true =>
    let distance := orig.distanceTo lip
    if distance < INTERACTION_RADIUS then
      let direction :=
        if 0 < (orig - lip).lengthSq then (orig - lip).normalize
        else fallbackDirection rnd
      let waveOffset := Real.sin (waveTime - distance * WAVE_SPEED) * 0.5 + 0.5
      let distanceFactor := 1 - distance / INTERACTION_RADIUS
      let swirl := V3.mk (-mouseVel.2 * SWIRL_STRENGTH) (mouseVel.1 * SWIRL_STRENGTH) 0
      let force := (WAVE_STRENGTH * distanceFactor * waveOffset) • direction
        + distanceFactor • swirl + (TURBULENCE * waveOffset) • turb
      (0.1 : ℝ) • force
    else 0
  | _, _ => 0

/-- One per-particle pass of the `animate` loop of `src/src/App.tsx`
(lines 338–405) given the particle's rest position `orig`, turbulence
vector `turb`, wave phase `phase`, the wall-clock milliseconds `tms`
(`Date.now()`), the current buffer position `pos` and velocity `vel`.
Returns the pair (value written to the position buffer, new velocity):
interaction force, then magnetic return force, then friction, then position
integration, then the breathing displacement along `normalize(orig)` added
to the written position only. -/
noncomputable def waveStep (interacting : Bool) (localPoint : Option V3)
    (mouseVel : ℝ × ℝ) (waveTime : ℝ) (rnd orig turb : V3) (phase tms : ℝ)
    (pos vel : V3) : V3 × V3 :=
  let vel1 := vel + waveInteractionForce interacting localPoint mouseVel waveTime rnd orig turb
  let vel2 := vel1 + MAGNETIC_FORCE • (orig - pos)
  let vel3 := FRICTION • vel2
  let newPos := pos + vel3
  let breathingOffset := Real.sin (tms * 0.001 + phase) * 0.01
  (newPos + breathingOffset • orig.normalize, vel3)

/-- Iterated frames of the wave-field variant with no active interaction
(`isInteracting = false`, so the interaction branch never fires): frame `n`
runs `waveStep` at wall-clock time `tms n`.  The pair is (buffer position,
velocity). -/
noncomputable def waveRun (orig turb : V3) (phase : ℝ) (mouseVel : ℝ × ℝ)
    (waveTime : ℝ) (rnd : V3) (tms : ℕ → ℝ) (pos₀ vel₀ : V3) : ℕ → V3 × V3
  | 0 => (pos₀, vel₀)
  | n + 1 =>
    let s := waveRun orig turb phase mouseVel waveTime rnd tms pos₀ vel₀ n
    waveStep false none mouseVel waveTime rnd orig turb phase (tms n) s.1 s.2

/-! ## Impulse variant (`src/unnamed/part_001`) -/

/-- The offset a mouse press adds to a particle with rest position `origI`
when the hit vertex's rest position is `hitOrig`
(`src/unnamed/part_001` lines 127–134): direction from the hit point to the
particle's rest position (random fallback when that is the zero vector),
normalized, scaled by `PUSH_STRENGTH * (1 - √distSq / √INTERACTION_RADIUS_SQ)`. -/
noncomputable def pressImpulse (origI hitOrig rnd : V3) : V3 :=
  let distSq := origI.distanceToSquared hitOrig
  let direction :=
    if (origI - hitOrig).lengthSq = 0 then fallbackDirection rnd
    else (origI - hitOrig).normalize
  let strength := PUSH_STRENGTH * (1 - Real.sqrt distSq / Real.sqrt INTERACTION_RADIUS_SQ)
  strength • direction

/-- Program state of the impulse variant: vertex count, cloned rest
positions (`originalPositionsRef`), the live geometry position attribute,
and the `targetOffsetsRef` map (`none` = no entry). -/
structure ImpulseState where
  count : ℕ
  origPositions : ℕ → V3
  positions : ℕ → V3
  targetOffsets : ℕ → Option V3

/-- `onMouseDown` of `src/unnamed/part_001` (lines 117–139) after a
successful raycast that anchored the press at vertex `hitIndex`: every
particle index whose rest position is within squared distance
`INTERACTION_RADIUS_SQ` of the hit vertex's rest position gets
`pressImpulse` added to its existing offset (`get(i) || new Vector3()`).
Positions and rest positions are untouched.  `rnd` holds the per-particle
random draws. -/
noncomputable def onMouseDownPress (st : ImpulseState) (hitIndex : ℕ)
    (rnd : ℕ → V3) : ImpulseState :=
  { st with targetOffsets := fun i =>
      if i < st.count ∧
          (st.origPositions i).distanceToSquared (st.origPositions hitIndex)
            < INTERACTION_RADIUS_SQ then
        some ((st.targetOffsets i).getD 0
          + pressImpulse (st.origPositions i) (st.origPositions hitIndex) (rnd i))
      else st.targetOffsets i }

/-- One per-particle pass of the `animate` loop of `src/unnamed/part_001`
(lines 159–185): with an active offset, lerp the position toward
`orig + offset` by `LERP_FACTOR`, decay the offset by `DECAY_FACTOR`, and
delete the map entry when its squared length drops below `0.001`; with no
offset, lerp the position toward `orig`.  Returns (new position, new
offset entry). -/
noncomputable def impulseStep (orig pos : V3) (off : Option V3) : V3 × Option V3 :=
  match off with
  | some o =>
    let pos' := pos.lerp (orig + o) LERP_FACTOR
    let o' := DECAY_FACTOR • o
    (pos', if o'.lengthSq < 0.001 then none else some o')
  | none => (pos.lerp orig LERP_FACTOR, none)

/-- Iterated frames of the impulse variant for one particle, with no
further impulses delivered. -/
noncomputable def impulseRun (orig pos₀ : V3) (off₀ : Option V3) : ℕ → V3 × Option V3
  | 0 => (pos₀, off₀)
  | n + 1 =>
    let s := impulseRun orig pos₀ off₀ n
    impulseStep orig s.1 s.2

/-! ## Additional vector lemmas used by the verification -/

namespace V3

@[simp] theorem sub_zero_v (a : V3) : a - 0 = a := by ext <;> simp
@[simp] theorem add_zero_v (a : V3) : a + 0 = a := by ext <;> simp
@[simp] theorem zero_add_v (a : V3) : 0 + a = a := by ext <;> simp
@[simp] theorem sub_self_v (a : V3) : a - a = 0 := by ext <;> simp
@[simp] theorem one_smul_v (a : V3) : (1 : ℝ) • a = a := by ext <;> simp
@[simp] theorem zero_smul_v (a : V3) : (0 : ℝ) • a = 0 := by ext <;> simp
@[simp] theorem smul_zero_v (c : ℝ) : c • (0 : V3) = 0 := by ext <;> simp

theorem smul_smul_v (c d : ℝ) (a : V3) : c • (d • a) = (c * d) • a := by
  ext <;> simp <;> ring

theorem sub_eq_zero_iff_v (a b : V3) : a - b = 0 ↔ a = b := by
  constructor
  · intro h
    have hx := congrArg V3.x h
    have hy := congrArg V3.y h
    have hz := congrArg V3.z h
    simp at hx hy hz
    ext <;> linarith
  · intro h
    subst h
    exact sub_self_v a

theorem normalize_length_le_one (a : V3) : a.normalize.length ≤ 1 := by
  by_cases h : a = 0
  · subst h
    rw [normalize_zero]
    simp [length, lengthSq]
  · rw [a.normalize_length h]

end V3

/-- Normalizing the unit vector `(1,0,0)` returns it unchanged. -/
theorem normalize_e1 : (V3.mk 1 0 0).normalize = V3.mk 1 0 0 := by
  have h0 : (V3.mk 1 0 0) ≠ (0 : V3) := by
    intro h
    have := congrArg V3.x h
    norm_num at this
  have hlen : (V3.mk 1 0 0).length = 1 := by
    unfold V3.length V3.lengthSq
    norm_num
  rw [V3.normalize_eq _ h0, hlen]
  ext <;> norm_num

/-- With no interaction point the interaction branch contributes nothing. -/
theorem waveInteractionForce_none (interacting : Bool) (mouseVel : ℝ × ℝ)
    (waveTime : ℝ) (rnd orig turb : V3) :
    waveInteractionForce interacting none mouseVel waveTime rnd orig turb = 0 := rfl

/-! ## Lyapunov function for the idle wave-field dynamics

With no interaction force, each coordinate of (position − rest, velocity)
evolves as `v' = FRICTION·(v + MAGNETIC_FORCE·(−e))`, `e' = e + v' + b`,
where `|b| ≤ 0.01` is the per-coordinate breathing displacement.  The
quadratic form `lyapV` satisfies `lyapV (e', v') ≤ (24/25)·lyapV (e, v) +
24·b²` exactly, so the sublevel set `lyapV ≤ 3/50` is invariant. -/

noncomputable def lyapV (e v : ℝ) : ℝ := e ^ 2 + (2 / 23) * e * v + (25 / 2) * v ^ 2

theorem lyapV_nonneg (e v : ℝ) : 0 ≤ lyapV e v := by
  unfold lyapV
  nlinarith [sq_nonneg (e + v / 23), sq_nonneg v]

theorem sq_le_two_lyapV (e v : ℝ) : e ^ 2 ≤ 2 * lyapV e v := by
  unfold lyapV
  nlinarith [sq_nonneg (e + (2 / 23) * v), sq_nonneg v]

theorem lyapV_core (e v b : ℝ)
    (hV : lyapV e v ≤ 3 / 50) (hb : b ^ 2 ≤ 1 / 10000) :
    lyapV (e + 23 / 25 * (v + 2 / 25 * -e) + b) (23 / 25 * (v + 2 / 25 * -e))
      ≤ 3 / 50 := by
  obtain ⟨w, hw⟩ : ∃ w : ℝ, w = 23 / 25 * (v + 2 / 25 * -e) := ⟨_, rfl⟩
  rw [← hw]
  obtain ⟨y, hy⟩ : ∃ y : ℝ, y = e + w := ⟨_, rfl⟩
  rw [show e + w + b = y + b from by rw [hy]]
  have hA : lyapV y w = (23 / 25) * lyapV e v := by
    unfold lyapV
    rw [hy, hw]
    ring
  have hu : (y + (1 / 23) * w) ^ 2 ≤ lyapV y w := by
    unfold lyapV
    nlinarith [sq_nonneg w]
  have hcross : 2 * (y + (1 / 23) * w) * b
      ≤ (1 / 23) * (y + (1 / 23) * w) ^ 2 + 23 * b ^ 2 := by
    nlinarith [sq_nonneg ((y + (1 / 23) * w) - 23 * b)]
  have hexp : lyapV (y + b) w = lyapV y w + 2 * (y + (1 / 23) * w) * b + b ^ 2 := by
    unfold lyapV
    ring
  have h1 : lyapV (y + b) w ≤ (24 / 25) * lyapV e v + 24 * b ^ 2 := by
    have h23 : (1 / 23) * (y + (1 / 23) * w) ^ 2 ≤ (1 / 23) * lyapV y w := by linarith
    linarith
  have h2 : (24 / 25) * lyapV e v ≤ (24 / 25) * (3 / 50) := by linarith
  have h3 : 24 * b ^ 2 ≤ 24 * (1 / 10000) := by linarith
  have h4 : (24 / 25 : ℝ) * (3 / 50) + 24 * (1 / 10000) = 3 / 50 := by norm_num
  linarith

theorem lyapV_step (e v b e' v' : ℝ)
    (hv' : v' = FRICTION * (v + MAGNETIC_FORCE * (-e)))
    (he' : e' = e + v' + b)
    (hV : lyapV e v ≤ 3 / 50) (hb : b ^ 2 ≤ 1 / 10000) :
    lyapV e' v' ≤ 3 / 50 := by
  have hF : FRICTION = (23 / 25 : ℝ) := by norm_num [FRICTION]
  have hM : MAGNETIC_FORCE = (2 / 25 : ℝ) := by norm_num [MAGNETIC_FORCE]
  rw [hF, hM] at hv'
  subst he'
  subst hv'
  exact lyapV_core e v b hV hb

/-- The per-coordinate breathing displacement `sin(θ)·0.01·u` with `u` a
component of a normalized vector has square at most `1/10000`. -/
theorem breathing_sq (θ u : ℝ) (hu : u ^ 2 ≤ 1) :
    (Real.sin θ * 0.01 * u) ^ 2 ≤ 1 / 10000 := by
  have hs : (Real.sin θ) ^ 2 ≤ 1 := by
    nlinarith [Real.neg_one_le_sin θ, Real.sin_le_one θ]
  have hsu : (Real.sin θ) ^ 2 * u ^ 2 ≤ 1 := by
    nlinarith [sq_nonneg (Real.sin θ), sq_nonneg u]
  nlinarith [sq_nonneg (Real.sin θ * u)]

/-! ## Helper lemmas for the impulse variant -/

/-- Unfolding equation for `impulseStep` on an active offset entry. -/
theorem impulseStep_some (orig p o : V3) :
    impulseStep orig p (some o) =
      (p.lerp (orig + o) LERP_FACTOR,
        if (DECAY_FACTOR • o).lengthSq < 0.001 then none
        else some (DECAY_FACTOR • o)) := rfl

/-- Unfolding equation for `impulseStep` on an empty offset entry. -/
theorem impulseStep_none (orig p : V3) :
    impulseStep orig p none = (p.lerp orig LERP_FACTOR, none) := rfl

/-- With no offset entry, one frame moves the position so that the
displacement from rest is scaled by exactly `1 - LERP_FACTOR`. -/
theorem impulseStep_none_sub_orig (orig p : V3) :
    (impulseStep orig p none).1 - orig = (1 - LERP_FACTOR) • (p - orig) := by
  unfold impulseStep V3.lerp
  ext <;> simp <;> ring

/-- A particle that never received an impulse keeps an empty offset entry. -/
theorem impulseRun_none_offset (orig pos₀ : V3) (n : ℕ) :
    (impulseRun orig pos₀ none n).2 = none := by
  induction n with
  | zero => rfl
  | succ m ih =>
    show (impulseStep orig (impulseRun orig pos₀ none m).1
      (impulseRun orig pos₀ none m).2).2 = none
    rw [ih]
    rfl

/-- Closed form of the no-offset easing over `n` frames. -/
theorem impulseRun_none_sub_orig (orig pos₀ : V3) (n : ℕ) :
    (impulseRun orig pos₀ none n).1 - orig
      = ((1 - LERP_FACTOR) ^ n) • (pos₀ - orig) := by
  induction n with
  | zero =>
    show pos₀ - orig = ((1 - LERP_FACTOR) ^ 0) • (pos₀ - orig)
    rw [pow_zero, V3.one_smul_v]
  | succ m ih =>
    have hoff := impulseRun_none_offset orig pos₀ m
    show (impulseStep orig (impulseRun orig pos₀ none m).1
        (impulseRun orig pos₀ none m).2).1 - orig
      = ((1 - LERP_FACTOR) ^ (m + 1)) • (pos₀ - orig)
    rw [hoff, impulseStep_none_sub_orig, ih, V3.smul_smul_v, ← pow_succ']

/-- An active offset either has the exact closed decayed form or has been
deleted. -/
theorem impulseRun_offset_closed (orig pos₀ off₀ : V3) (n : ℕ) :
    (impulseRun orig pos₀ (some off₀) n).2 = some ((DECAY_FACTOR ^ n) • off₀)
    ∨ (impulseRun orig pos₀ (some off₀) n).2 = none := by
  induction n with
  | zero =>
    left
    show some off₀ = some ((DECAY_FACTOR ^ 0) • off₀)
    rw [pow_zero, V3.one_smul_v]
  | succ m ih =>
    have hdef : (impulseRun orig pos₀ (some off₀) (m + 1)).2
        = (impulseStep orig (impulseRun orig pos₀ (some off₀) m).1
            (impulseRun orig pos₀ (some off₀) m).2).2 := rfl
    rcases ih with hsome | hnone
    · rw [hdef, hsome, impulseStep_some]
      rw [V3.smul_smul_v, ← pow_succ']
      by_cases hc : ((DECAY_FACTOR ^ (m + 1)) • off₀).lengthSq < 0.001
      · right
        simp [hc]
      · left
        simp [hc]
    · right
      rw [hdef, hnone, impulseStep_none]

/-- Once the decayed offset is below the deletion threshold it stays
below it. -/
theorem decay_cond_mono (off₀ : V3) (n : ℕ)
    (h : ((DECAY_FACTOR ^ n) • off₀).lengthSq < 0.001) :
    ((DECAY_FACTOR ^ (n + 1)) • off₀).lengthSq < 0.001 := by
  rw [V3.lengthSq_smul] at h ⊢
  have hD0 : (0 : ℝ) ≤ DECAY_FACTOR := by norm_num [DECAY_FACTOR]
  have hD1 : DECAY_FACTOR ≤ 1 := by norm_num [DECAY_FACTOR]
  have hpow : DECAY_FACTOR ^ (n + 1) ≤ DECAY_FACTOR ^ n :=
    pow_le_pow_of_le_one hD0 hD1 (Nat.le_succ n)
  have hsq : (DECAY_FACTOR ^ (n + 1)) ^ 2 ≤ (DECAY_FACTOR ^ n) ^ 2 :=
    pow_le_pow_left₀ (pow_nonneg hD0 _) hpow 2
  have hL := off₀.lengthSq_nonneg
  calc (DECAY_FACTOR ^ (n + 1)) ^ 2 * off₀.lengthSq
      ≤ (DECAY_FACTOR ^ n) ^ 2 * off₀.lengthSq :=
        mul_le_mul_of_nonneg_right hsq hL
    _ < 0.001 := h

/-- The offset map entry is deleted exactly at the first frame `n ≥ 1` at
which the decayed offset's squared length drops below `0.001`. -/
theorem impulseRun_offset_none_iff (orig pos₀ off₀ : V3) (n : ℕ)
    (hn : 1 ≤ n) :
    (impulseRun orig pos₀ (some off₀) n).2 = none ↔
      ((DECAY_FACTOR ^ n) • off₀).lengthSq < 0.001 := by
  induction n with
  | zero => omega
  | succ m ih =>
    have hdef : (impulseRun orig pos₀ (some off₀) (m + 1)).2
        = (impulseStep orig (impulseRun orig pos₀ (some off₀) m).1
            (impulseRun orig pos₀ (some off₀) m).2).2 := rfl
    by_cases hm : m = 0
    · subst hm
      rw [hdef]
      show (impulseStep orig pos₀ (some off₀)).2 = none ↔ _
      rw [impulseStep_some]
      by_cases hc : ((DECAY_FACTOR • off₀).lengthSq) < 0.001
      · have hc' : ((DECAY_FACTOR ^ 1) • off₀).lengthSq < 0.001 := by
          rw [pow_one]; exact hc
        simp [hc, hc']
      · have hc' : ¬ ((DECAY_FACTOR ^ 1) • off₀).lengthSq < 0.001 := by
          rw [pow_one]; exact hc
        simp [hc, hc']
    · have hm1 : 1 ≤ m := Nat.one_le_iff_ne_zero.mpr hm
      specialize ih hm1
      constructor
      · intro hnone
        rcases impulseRun_offset_closed orig pos₀ off₀ m with hsome | hnone'
        · rw [hdef, hsome, impulseStep_some] at hnone
          rw [V3.smul_smul_v, ← pow_succ'] at hnone
          by_cases hc : ((DECAY_FACTOR ^ (m + 1)) • off₀).lengthSq < 0.001
          · exact hc
          · simp [hc] at hnone
        · exact decay_cond_mono off₀ m (ih.mp hnone')
      · intro hcond
        rcases impulseRun_offset_closed orig pos₀ off₀ m with hsome | hnone'
        · rw [hdef, hsome, impulseStep_some]
          rw [V3.smul_smul_v, ← pow_succ']
          simp [hcond]
        · rw [hdef, hnone', impulseStep_none]

/-! ## Claim theorems -/

/-- C10: in the impulse variant, a particle with no entry in the active
offset map is lerped toward `originalPosition` with fixed factor
`LERP_FACTOR` every frame, so its displacement from rest contracts by
exactly the factor `1 - LERP_FACTOR` per frame; over `n` frames the
distance to rest is `(1 - LERP_FACTOR)^n` times the initial distance, with
no interaction ever active. -/
theorem c10_unconditional_easing (orig pos₀ : V3) (n : ℕ) :
    ((impulseStep orig pos₀ none).1 - orig = (1 - LERP_FACTOR) • (pos₀ - orig)) ∧
    ((impulseRun orig pos₀ none n).1 - orig
      = ((1 - LERP_FACTOR) ^ n) • (pos₀ - orig)) ∧
    ((impulseRun orig pos₀ none n).2 = none) ∧
    (((impulseRun orig pos₀ none n).1).distanceTo orig
      = (1 - LERP_FACTOR) ^ n * pos₀.distanceTo orig) := by
  refine ⟨impulseStep_none_sub_orig orig pos₀, impulseRun_none_sub_orig orig pos₀ n,
    impulseRun_none_offset orig pos₀ n, ?_⟩
  unfold V3.distanceTo
  rw [impulseRun_none_sub_orig, V3.length_smul, abs_of_nonneg]
  exact pow_nonneg (by norm_num [LERP_FACTOR]) n

/-- C4: under the impulse policy, a particle at positive distance less
than the interaction radius from the hit vertex receives an offset with
strictly positive dot product with `originalPosition − hitPoint`: it is
pushed away from the interaction point. -/
theorem c4_push_direction (origI hitOrig rnd : V3)
    (h1 : 0 < (origI - hitOrig).lengthSq)
    (h2 : (origI - hitOrig).lengthSq < INTERACTION_RADIUS_SQ) :
    0 < V3.dot (pressImpulse origI hitOrig rnd) (origI - hitOrig) := by
  have hd0 : (origI - hitOrig) ≠ 0 := (V3.lengthSq_pos_iff _).mp h1
  have hlen : 0 < (origI - hitOrig).length := (V3.length_pos_iff _).mpr hd0
  have hne : (origI - hitOrig).lengthSq ≠ 0 := ne_of_gt h1
  simp only [pressImpulse, V3.distanceToSquared]
  rw [if_neg hne, V3.dot_smul_left, V3.normalize_eq _ hd0, V3.dot_smul_left,
    V3.dot_self]
  have hRSQ : (0 : ℝ) < INTERACTION_RADIUS_SQ := by norm_num [INTERACTION_RADIUS_SQ]
  have hsr : Real.sqrt ((origI - hitOrig).lengthSq)
      < Real.sqrt INTERACTION_RADIUS_SQ := Real.sqrt_lt_sqrt (le_of_lt h1) h2
  have hsR : 0 < Real.sqrt INTERACTION_RADIUS_SQ := Real.sqrt_pos.mpr hRSQ
  have hratio : Real.sqrt ((origI - hitOrig).lengthSq)
      / Real.sqrt INTERACTION_RADIUS_SQ < 1 := (div_lt_one hsR).mpr hsr
  have hstrength : 0 < PUSH_STRENGTH
      * (1 - Real.sqrt ((origI - hitOrig).lengthSq) / Real.sqrt INTERACTION_RADIUS_SQ) := by
    have hp : (0 : ℝ) < PUSH_STRENGTH := by norm_num [PUSH_STRENGTH]
    nlinarith
  have hrest : 0 < 1 / (origI - hitOrig).length * (origI - hitOrig).lengthSq := by
    positivity
  exact mul_pos hstrength hrest

/-- C4 witness: a particle at squared distance `1` from the hit vertex
(inside the radius `√1.5`) is pushed away. -/
theorem c4_push_direction_witness :
    0 < V3.dot (pressImpulse ⟨1, 0, 0⟩ 0 0) ((⟨1, 0, 0⟩ : V3) - 0) :=
  c4_push_direction ⟨1, 0, 0⟩ 0 0
    (by norm_num [V3.lengthSq])
    (by norm_num [V3.lengthSq, INTERACTION_RADIUS_SQ])

/-- C8 counterexample: `handleInteractionEnd` does **not** clear the stored
interaction point reference — starting from a state holding
`some (1, 2, 3)`, the reference still holds it afterwards. -/
theorem c8_counterexample :
    (handleInteractionEnd
      ⟨fun _ => none, fun _ => 0, true, (0, 0), (0, 0), (1, 1),
        some ⟨1, 2, 3⟩, 5⟩).interactionPoint ≠ none := by
  simp [handleInteractionEnd]

/-- C8 (amended): on interaction end the pointer-velocity estimate is set
to exactly zero and the interacting flag is cleared, while the stored
interaction point reference is retained unchanged (not set to null) and no
particle state or other interaction field is touched. -/
theorem c8_amended (s : WaveState) :
    (handleInteractionEnd s).mouseVelocity = (0, 0) ∧
    (handleInteractionEnd s).isInteracting = false ∧
    (handleInteractionEnd s).interactionPoint = s.interactionPoint ∧
    (handleInteractionEnd s).particlePhysics = s.particlePhysics ∧
    (handleInteractionEnd s).positions = s.positions ∧
    (handleInteractionEnd s).mousePosition = s.mousePosition ∧
    (handleInteractionEnd s).previousMousePosition = s.previousMousePosition ∧
    (handleInteractionEnd s).waveTime = s.waveTime := by
  simp [handleInteractionEnd]

/-- C9: influence is measured from rest geometry.  In the wave variant,
two states that differ only in the particle's current position produce
velocities that differ exactly by the friction-scaled spring difference —
the interaction branch (affectedness test, direction, wave, swirl,
turbulence) contributes identically, because it reads only
`originalPosition`.  In the impulse variant, the offsets written by a press
do not depend on the current (displaced) positions at all, and the press
writes no positions. -/
theorem c9_rest_geometry_influence :
    (∀ (interacting : Bool) (lp : Option V3) (mv : ℝ × ℝ) (wt : ℝ)
        (rnd orig turb : V3) (phase tms : ℝ) (vel pos₁ pos₂ : V3),
      (waveStep interacting lp mv wt rnd orig turb phase tms pos₁ vel).2
        - (waveStep interacting lp mv wt rnd orig turb phase tms pos₂ vel).2
        = (FRICTION * MAGNETIC_FORCE) • (pos₂ - pos₁)) ∧
    (∀ (st : ImpulseState) (posB : ℕ → V3) (hit : ℕ) (rnd : ℕ → V3),
      (onMouseDownPress { st with positions := posB } hit rnd).targetOffsets
        = (onMouseDownPress st hit rnd).targetOffsets ∧
      (onMouseDownPress st hit rnd).positions = st.positions) := by
  constructor
  · intro interacting lp mv wt rnd orig turb phase tms vel pos₁ pos₂
    simp only [waveStep]
    ext <;> simp <;> ring
  · intro st posB hit rnd
    constructor
    · rfl
    · rfl

/-- A press whose hit vertex coincides exactly with the particle's rest
position produces `PUSH_STRENGTH` times the fallback direction. -/
theorem pressImpulse_self (hitOrig r : V3) :
    pressImpulse hitOrig hitOrig r = PUSH_STRENGTH • fallbackDirection r := by
  simp only [pressImpulse, V3.distanceToSquared, V3.sub_self_v]
  rw [if_pos (by simp [V3.lengthSq])]
  rw [show (0 : V3).lengthSq = 0 from by simp [V3.lengthSq]]
  rw [Real.sqrt_zero, zero_div, sub_zero, mul_one]

/-- C5 counterexample: when every component of the random draw is exactly
`0.5`, the substituted vector is the zero vector, and three.js's guarded
`normalize` leaves it zero — the fallback direction is **not** unit-length
at that draw. -/
theorem c5_counterexample :
    (fallbackDirection ⟨0.5, 0.5, 0.5⟩).length ≠ 1 := by
  unfold fallbackDirection
  rw [show V3.mk ((V3.mk (0.5 : ℝ) 0.5 0.5).x - 0.5)
      ((V3.mk (0.5 : ℝ) 0.5 0.5).y - 0.5) ((V3.mk (0.5 : ℝ) 0.5 0.5).z - 0.5)
      = (0 : V3) from by ext <;> norm_num]
  rw [V3.normalize_zero]
  unfold V3.length V3.lengthSq
  norm_num

/-- C5 (amended): whenever the substituted random vector is nonzero (not
every draw component equal to `0.5`), the fallback direction is exactly
unit-length; and for a particle exactly coincident with the hit vertex the
press offset always has length at most `PUSH_STRENGTH` — in particular
`PUSH_STRENGTH` times the fallback length exactly — so every value written
is a finite real number (no NaN or Infinity can arise: the zero-length
division is guarded). -/
theorem c5_amended (rnd : V3)
    (h : V3.mk (rnd.x - 0.5) (rnd.y - 0.5) (rnd.z - 0.5) ≠ 0) :
    (fallbackDirection rnd).length = 1 ∧
    (∀ hitOrig : V3, (pressImpulse hitOrig hitOrig rnd).length = PUSH_STRENGTH) ∧
    (∀ r hitOrig : V3, (pressImpulse hitOrig hitOrig r).length ≤ PUSH_STRENGTH) := by
  have hP : (0 : ℝ) ≤ PUSH_STRENGTH := by norm_num [PUSH_STRENGTH]
  have hunit : (fallbackDirection rnd).length = 1 := V3.normalize_length _ h
  refine ⟨hunit, ?_, ?_⟩
  · intro hitOrig
    rw [pressImpulse_self, V3.length_smul, abs_of_nonneg hP, hunit, mul_one]
  · intro r hitOrig
    rw [pressImpulse_self, V3.length_smul, abs_of_nonneg hP]
    have hle : (fallbackDirection r).length ≤ 1 := V3.normalize_length_le_one _
    nlinarith

/-- C5 witness: the draw `(1, 0, 0)` yields the nonzero substituted vector
`(0.5, -0.5, -0.5)`, a unit-length fallback direction, and a degenerate
press offset of length exactly `PUSH_STRENGTH`. -/
theorem c5_amended_witness :
    (fallbackDirection ⟨1, 0, 0⟩).length = 1 ∧
    (pressImpulse 0 0 ⟨1, 0, 0⟩).length = PUSH_STRENGTH :=
  have h := c5_amended ⟨1, 0, 0⟩ (by
    intro hEq
    have := congrArg V3.x hEq
    norm_num at this)
  ⟨h.1, h.2.1 0⟩

/-- Modelled from the spec, for comparison with `pressImpulse` (what is
missing from the code is any jitter step): "Magnitude = `K · (1 − d/R)`,
jittered by a small random unit vector added before final normalization" —
the random unit jitter `jit` is added to the push direction and the sum is
re-normalized before being scaled by the magnitude. -/
noncomputable def specJitteredImpulse (origI hitOrig jit : V3) : V3 :=
  let distSq := origI.distanceToSquared hitOrig
  let strength := PUSH_STRENGTH * (1 - Real.sqrt distSq / Real.sqrt INTERACTION_RADIUS_SQ)
  strength • ((origI - hitOrig).normalize + jit).normalize

/-- C7 counterexample: the press offset of the code is independent of the
random draw and keeps the exact direction `normalize(orig − hit)` (its `y`
component is `0` for a particle displaced along `x`), whereas the
spec's jittered formula with the unit jitter `(0,1,0)` has a nonzero `y`
component at the same input — no jitter is applied in the code. -/
theorem c7_counterexample :
    (pressImpulse ⟨1, 0, 0⟩ 0 ⟨0, 0, 0⟩ = pressImpulse ⟨1, 0, 0⟩ 0 ⟨1, 1, 1⟩) ∧
    ((pressImpulse ⟨1, 0, 0⟩ 0 ⟨0, 0, 0⟩).y = 0) ∧
    ((specJitteredImpulse ⟨1, 0, 0⟩ 0 ⟨0, 1, 0⟩).y ≠ 0) := by
  have hcode : ∀ r : V3, pressImpulse ⟨1, 0, 0⟩ 0 r
      = (PUSH_STRENGTH * (1 - 1 / Real.sqrt INTERACTION_RADIUS_SQ)) • V3.mk 1 0 0 := by
    intro r
    simp only [pressImpulse, V3.distanceToSquared, V3.sub_zero_v]
    rw [if_neg (by norm_num [V3.lengthSq])]
    rw [normalize_e1]
    rw [show (V3.mk (1 : ℝ) 0 0).lengthSq = 1 from by norm_num [V3.lengthSq],
      Real.sqrt_one]
  have hsR : 1 < Real.sqrt INTERACTION_RADIUS_SQ := by
    rw [show (1 : ℝ) = Real.sqrt 1 from Real.sqrt_one.symm]
    exact Real.sqrt_lt_sqrt (by norm_num) (by norm_num [INTERACTION_RADIUS_SQ])
  have hs : 0 < PUSH_STRENGTH * (1 - 1 / Real.sqrt INTERACTION_RADIUS_SQ) := by
    have hpos : (0 : ℝ) < Real.sqrt INTERACTION_RADIUS_SQ := by linarith
    have hlt : 1 / Real.sqrt INTERACTION_RADIUS_SQ < 1 := by
      rw [div_lt_one hpos]
      exact hsR
    have hp : (0 : ℝ) < PUSH_STRENGTH := by norm_num [PUSH_STRENGTH]
    nlinarith
  refine ⟨by rw [hcode, hcode], by rw [hcode]; simp, ?_⟩
  have hspec : (specJitteredImpulse ⟨1, 0, 0⟩ 0 ⟨0, 1, 0⟩).y
      = (PUSH_STRENGTH * (1 - 1 / Real.sqrt INTERACTION_RADIUS_SQ))
        * (1 / Real.sqrt 2) := by
    simp only [specJitteredImpulse, V3.distanceToSquared, V3.sub_zero_v]
    rw [normalize_e1]
    rw [show V3.mk (1 : ℝ) 0 0 + V3.mk 0 1 0 = V3.mk 1 1 0 from by ext <;> norm_num]
    have hn110 : (V3.mk (1 : ℝ) 1 0).normalize = (1 / Real.sqrt 2) • V3.mk 1 1 0 := by
      rw [V3.normalize_eq _ (by
        intro hEq
        have := congrArg V3.x hEq
        norm_num at this)]
      unfold V3.length
      rw [show (V3.mk (1 : ℝ) 1 0).lengthSq = 2 from by norm_num [V3.lengthSq]]
    rw [hn110]
    rw [show (V3.mk (1 : ℝ) 0 0).lengthSq = 1 from by norm_num [V3.lengthSq],
      Real.sqrt_one]
    simp
  rw [hspec]
  have h2pos : 0 < 1 / Real.sqrt 2 := by
    have : (0 : ℝ) < Real.sqrt 2 := Real.sqrt_pos.mpr (by norm_num)
    positivity
  positivity

/-- C7 (amended): for `0 < d < R` the press offset has magnitude exactly
`K · (1 − d/R)` and direction exactly `normalize(originalPosition −
hitPoint)`; no jitter is applied — the offset is independent of the random
draw, which is consulted only in the degenerate `d = 0` fallback. -/
theorem c7_amended (origI hitOrig r r' : V3)
    (h1 : 0 < (origI - hitOrig).lengthSq)
    (h2 : (origI - hitOrig).lengthSq < INTERACTION_RADIUS_SQ) :
    (pressImpulse origI hitOrig r
      = (PUSH_STRENGTH * (1 - Real.sqrt ((origI - hitOrig).lengthSq)
          / Real.sqrt INTERACTION_RADIUS_SQ)) • (origI - hitOrig).normalize) ∧
    ((pressImpulse origI hitOrig r).length
      = PUSH_STRENGTH * (1 - Real.sqrt ((origI - hitOrig).lengthSq)
          / Real.sqrt INTERACTION_RADIUS_SQ)) ∧
    (pressImpulse origI hitOrig r = pressImpulse origI hitOrig r') := by
  have hd0 : (origI - hitOrig) ≠ 0 := (V3.lengthSq_pos_iff _).mp h1
  have heq : ∀ rr : V3, pressImpulse origI hitOrig rr
      = (PUSH_STRENGTH * (1 - Real.sqrt ((origI - hitOrig).lengthSq)
          / Real.sqrt INTERACTION_RADIUS_SQ)) • (origI - hitOrig).normalize := by
    intro rr
    simp only [pressImpulse, V3.distanceToSquared]
    rw [if_neg (ne_of_gt h1)]
  have hsR : 0 < Real.sqrt INTERACTION_RADIUS_SQ :=
    Real.sqrt_pos.mpr (by norm_num [INTERACTION_RADIUS_SQ])
  have hsr : Real.sqrt ((origI - hitOrig).lengthSq)
      < Real.sqrt INTERACTION_RADIUS_SQ := Real.sqrt_lt_sqrt (le_of_lt h1) h2
  have hratio : Real.sqrt ((origI - hitOrig).lengthSq)
      / Real.sqrt INTERACTION_RADIUS_SQ < 1 := (div_lt_one hsR).mpr hsr
  have hs : 0 < PUSH_STRENGTH * (1 - Real.sqrt ((origI - hitOrig).lengthSq)
      / Real.sqrt INTERACTION_RADIUS_SQ) := by
    have hp : (0 : ℝ) < PUSH_STRENGTH := by norm_num [PUSH_STRENGTH]
    nlinarith
  refine ⟨heq r, ?_, by rw [heq r, heq r']⟩
  rw [heq r, V3.length_smul, V3.normalize_length _ hd0, mul_one, abs_of_pos hs]

/-- C7 witness: the amended statement evaluated at a particle at squared
distance `1` from the hit vertex with two distinct draws. -/
theorem c7_amended_witness :
    pressImpulse ⟨1, 0, 0⟩ 0 ⟨0, 0, 0⟩ = pressImpulse ⟨1, 0, 0⟩ 0 ⟨1, 1, 1⟩ :=
  (c7_amended ⟨1, 0, 0⟩ 0 ⟨0, 0, 0⟩ ⟨1, 1, 1⟩
    (by norm_num [V3.lengthSq])
    (by norm_num [V3.lengthSq, INTERACTION_RADIUS_SQ])).2.2

/-- When not interacting, the interaction branch contributes nothing,
whatever the stored interaction point is. -/
theorem waveInteractionForce_not_interacting (lp : Option V3) (mouseVel : ℝ × ℝ)
    (waveTime : ℝ) (rnd orig turb : V3) :
    waveInteractionForce false lp mouseVel waveTime rnd orig turb = 0 := by
  rcases lp with _ | ip <;> rfl

/-- C2 counterexample: with no interaction active, zero velocity, and the
particle displaced from rest, the always-on magnetic return force makes the
post-frame speed `FRICTION · MAGNETIC_FORCE > 0`, which is **not** at most
`FRICTION` times the (zero) pre-frame speed. -/
theorem c2_counterexample :
    ¬ ((waveStep false none (0, 0) 0 0 ⟨1, 0, 0⟩ 0 0 0 0 0).2.length
        ≤ FRICTION * (0 : V3).length) := by
  have hv : (waveStep false none (0, 0) 0 0 ⟨1, 0, 0⟩ 0 0 0 0 0).2
      = V3.mk (FRICTION * MAGNETIC_FORCE) 0 0 := by
    simp only [waveStep, waveInteractionForce_none]
    ext <;> simp
  rw [hv]
  rw [show (0 : V3).length = 0 from by
    unfold V3.length V3.lengthSq
    norm_num]
  rw [mul_zero]
  intro hle
  have hpos : 0 < (V3.mk (FRICTION * MAGNETIC_FORCE) 0 0).length := by
    rw [V3.length_pos_iff]
    intro hEq
    have := congrArg V3.x hEq
    norm_num [FRICTION, MAGNETIC_FORCE] at this
  linarith

/-- C2 (amended): absent new forces — no interaction force **and** a
vanishing restoring force, i.e. the particle at its rest position — the
post-frame velocity magnitude is exactly `FRICTION` times the pre-frame
one (hence at most it), with `FRICTION < 1`.  When the particle is
displaced, the spring contribution can exceed this bound, as the
counterexample shows. -/
theorem c2_amended (lp : Option V3) (mv : ℝ × ℝ) (wt : ℝ) (rnd orig turb : V3)
    (phase tms : ℝ) (pos vel : V3) (hpos : pos = orig) :
    ((waveStep false lp mv wt rnd orig turb phase tms pos vel).2.length
      = FRICTION * vel.length) ∧ FRICTION < 1 := by
  subst hpos
  constructor
  · have hv : (waveStep false lp mv wt rnd pos turb phase tms pos vel).2
        = FRICTION • vel := by
      simp only [waveStep, waveInteractionForce_not_interacting]
      ext <;> simp
    rw [hv, V3.length_smul, abs_of_nonneg (by norm_num [FRICTION])]
  · norm_num [FRICTION]

/-- C2 witness: the amended statement at a particle at rest position
`(1,2,3)` with velocity `(4,5,6)`. -/
theorem c2_amended_witness :
    ((waveStep false none (0, 0) 0 0 ⟨1, 2, 3⟩ 0 0 0 ⟨1, 2, 3⟩ ⟨4, 5, 6⟩).2.length
      = FRICTION * (V3.mk 4 5 6).length) ∧ FRICTION < 1 :=
  c2_amended none (0, 0) 0 0 ⟨1, 2, 3⟩ 0 0 0 ⟨1, 2, 3⟩ ⟨4, 5, 6⟩ rfl

/-- C6 counterexample: two idle two-frame runs that differ **only** in the
particle's wave phase (`π/2` vs `0`) end with different velocities —
because the breathing displacement is written into the position buffer,
which is the position state the next frame integrates from, the breathing
does feed back into the integrated state (and hence the velocity) across
frames. -/
theorem c6_counterexample :
    (waveRun ⟨1, 0, 0⟩ 0 (Real.pi / 2) (0, 0) 0 0 (fun _ => 0) ⟨1, 0, 0⟩ 0 2).2
      ≠ (waveRun ⟨1, 0, 0⟩ 0 0 (0, 0) 0 0 (fun _ => 0) ⟨1, 0, 0⟩ 0 2).2 := by
  have hstep1 : ∀ φ : ℝ,
      (waveRun ⟨1, 0, 0⟩ 0 φ (0, 0) 0 0 (fun _ => 0) ⟨1, 0, 0⟩ 0 1).1.x
          = 1 + Real.sin φ * 0.01 ∧
      (waveRun ⟨1, 0, 0⟩ 0 φ (0, 0) 0 0 (fun _ => 0) ⟨1, 0, 0⟩ 0 1).2.x = 0 := by
    intro φ
    constructor
    · show (waveStep false none (0, 0) 0 0 ⟨1, 0, 0⟩ 0 φ ((fun _ : ℕ => (0 : ℝ)) 0)
        ⟨1, 0, 0⟩ 0).1.x = 1 + Real.sin φ * 0.01
      simp only [waveStep, waveInteractionForce_none, normalize_e1]
      simp
    · show (waveStep false none (0, 0) 0 0 ⟨1, 0, 0⟩ 0 φ ((fun _ : ℕ => (0 : ℝ)) 0)
        ⟨1, 0, 0⟩ 0).2.x = 0
      simp only [waveStep, waveInteractionForce_none]
      simp
  have hstep2 : ∀ φ : ℝ,
      (waveRun ⟨1, 0, 0⟩ 0 φ (0, 0) 0 0 (fun _ => 0) ⟨1, 0, 0⟩ 0 2).2.x
        = FRICTION * ((waveRun ⟨1, 0, 0⟩ 0 φ (0, 0) 0 0 (fun _ => 0) ⟨1, 0, 0⟩ 0 1).2.x
            + MAGNETIC_FORCE
              * (1 - (waveRun ⟨1, 0, 0⟩ 0 φ (0, 0) 0 0 (fun _ => 0) ⟨1, 0, 0⟩ 0 1).1.x)) := by
    intro φ
    show (waveStep false none (0, 0) 0 0 ⟨1, 0, 0⟩ 0 φ ((fun _ : ℕ => (0 : ℝ)) 1)
        (waveRun ⟨1, 0, 0⟩ 0 φ (0, 0) 0 0 (fun _ => 0) ⟨1, 0, 0⟩ 0 1).1
        (waveRun ⟨1, 0, 0⟩ 0 φ (0, 0) 0 0 (fun _ => 0) ⟨1, 0, 0⟩ 0 1).2).2.x = _
    simp only [waveStep, waveInteractionForce_none]
    simp
  intro hEq
  have hx := congrArg V3.x hEq
  rw [hstep2 (Real.pi / 2), hstep2 0] at hx
  rw [(hstep1 (Real.pi / 2)).1, (hstep1 (Real.pi / 2)).2,
    (hstep1 0).1, (hstep1 0).2] at hx
  rw [Real.sin_pi_div_two, Real.sin_zero] at hx
  norm_num [FRICTION, MAGNETIC_FORCE] at hx

/-- C6 (amended): within a frame the breathing term — a pure function of
the wall clock and the particle's fixed phase — is never added to the
velocity (the new velocity is independent of clock and phase), and the
written position is exactly the integrated position plus the breathing
displacement along `normalize(originalPosition)`.  However, since the
written (breathing-displaced) position is the position state the next
frame reads, the breathing does affect the integrated position across
frames, as the counterexample shows. -/
theorem c6_amended (interacting : Bool) (lp : Option V3) (mv : ℝ × ℝ) (wt : ℝ)
    (rnd orig turb : V3) (phase tms phase' tms' : ℝ) (pos vel : V3) :
    ((waveStep interacting lp mv wt rnd orig turb phase tms pos vel).2
      = (waveStep interacting lp mv wt rnd orig turb phase' tms' pos vel).2) ∧
    ((waveStep interacting lp mv wt rnd orig turb phase tms pos vel).1
      = pos + (waveStep interacting lp mv wt rnd orig turb phase tms pos vel).2
        + (Real.sin (tms * 0.001 + phase) * 0.01) • orig.normalize) := by
  exact ⟨rfl, rfl⟩

/-- C3: under the impulse policy with no further impulses, an active
offset after `n` frames equals `DECAY_FACTOR^n` times the initial one, so
its magnitude is `|offset₀| · DECAY_FACTOR^n`; the particle's entry is
deleted from the active offset map exactly at the first frame `n ≥ 1` at
which the decayed offset's squared length drops below `0.001` (the
condition is monotone, so the iff characterizes the first such frame); and
once deleted, each subsequent frame eases the position toward exactly
`originalPosition`, scaling the displacement by `1 - LERP_FACTOR`. -/
theorem c3_offset_decay_law (orig pos₀ off₀ : V3) (n : ℕ) :
    (∀ o : V3, (impulseRun orig pos₀ (some off₀) n).2 = some o →
      o = (DECAY_FACTOR ^ n) • off₀ ∧
      o.length = DECAY_FACTOR ^ n * off₀.length) ∧
    (1 ≤ n → ((impulseRun orig pos₀ (some off₀) n).2 = none ↔
      ((DECAY_FACTOR ^ n) • off₀).lengthSq < 0.001)) ∧
    ((impulseRun orig pos₀ (some off₀) n).2 = none →
      (impulseRun orig pos₀ (some off₀) (n + 1)).1 - orig
        = (1 - LERP_FACTOR) • ((impulseRun orig pos₀ (some off₀) n).1 - orig)) := by
  refine ⟨?_, fun hn => impulseRun_offset_none_iff orig pos₀ off₀ n hn, ?_⟩
  · intro o ho
    rcases impulseRun_offset_closed orig pos₀ off₀ n with hsome | hnone
    · rw [hsome] at ho
      have heq : (DECAY_FACTOR ^ n) • off₀ = o := Option.some_inj.mp ho
      subst heq
      refine ⟨rfl, ?_⟩
      rw [V3.length_smul, abs_of_nonneg (pow_nonneg (by norm_num [DECAY_FACTOR]) n)]
    · rw [hnone] at ho
      exact absurd ho (by simp)
  · intro hnone
    have hdef : (impulseRun orig pos₀ (some off₀) (n + 1)).1
        = (impulseStep orig (impulseRun orig pos₀ (some off₀) n).1
            (impulseRun orig pos₀ (some off₀) n).2).1 := rfl
    rw [hdef, hnone]
    exact impulseStep_none_sub_orig orig _

/-- C3 witness: at frame `0` the offset is the initial one; an initial
offset `(1/100, 0, 0)` is deleted at frame `1` (its decayed squared length
`(0.95/100)² < 0.001`), and frame `2` then eases the position toward the
rest position. -/
theorem c3_offset_decay_law_witness :
    ((V3.mk 1 0 0 = (DECAY_FACTOR ^ 0) • (V3.mk 1 0 0)) ∧
      (V3.mk 1 0 0).length = DECAY_FACTOR ^ 0 * (V3.mk 1 0 0).length) ∧
    (((DECAY_FACTOR ^ 1) • (V3.mk (1 / 100) 0 0)).lengthSq < 0.001) ∧
    ((impulseRun 0 0 (some (V3.mk (1 / 100) 0 0)) 2).1 - 0
      = (1 - LERP_FACTOR) • ((impulseRun 0 0 (some (V3.mk (1 / 100) 0 0)) 1).1 - 0)) := by
  have h0 : (impulseRun 0 0 (some (V3.mk 1 0 0)) 0).2 = some (V3.mk 1 0 0) := rfl
  have h1 : (impulseRun 0 0 (some (V3.mk (1 / 100) 0 0)) 1).2 = none := by
    show (impulseStep 0 0 (some (V3.mk (1 / 100) 0 0))).2 = none
    rw [impulseStep_some]
    rw [if_pos (by norm_num [V3.lengthSq, DECAY_FACTOR])]
  have hpart1 := (c3_offset_decay_law 0 0 (V3.mk 1 0 0) 0).1 (V3.mk 1 0 0) h0
  have hpart2 := ((c3_offset_decay_law 0 0 (V3.mk (1 / 100) 0 0) 1).2.1
    (le_refl 1)).mp h1
  have hpart3 := (c3_offset_decay_law 0 0 (V3.mk (1 / 100) 0 0) 1).2.2 h1
  exact ⟨hpart1, hpart2, hpart3⟩

/-- C1: rest invariance.  In the wave-field variant, a particle that
starts at its rest position with zero velocity and never sees an active
interaction stays within the fixed bound `3/5` of its rest position for
every number of frames, for every sequence of frame times and every wave
phase — the spring pull and friction contract a quadratic Lyapunov form by
the factor `24/25` per frame while the breathing displacement perturbs it
by at most `24/10⁴`, so the form stays below `3/50` and each coordinate of
the displacement stays below `√(3/25)`.  In the impulse variant, a
particle at rest with no offset entry stays exactly at rest. -/
theorem c1_rest_invariance (orig turb rnd : V3) (phase waveTime : ℝ)
    (mouseVel : ℝ × ℝ) (tms : ℕ → ℝ) (pos₀ vel₀ : V3)
    (hp : pos₀ = orig) (hv : vel₀ = 0) (n : ℕ) :
    ((waveRun orig turb phase mouseVel waveTime rnd tms pos₀ vel₀ n).1).distanceTo orig
      ≤ 3 / 5 ∧
    (impulseRun orig orig none n).1 = orig := by
  rw [hp, hv]
  constructor
  · have key : ∀ m : ℕ,
        lyapV ((waveRun orig turb phase mouseVel waveTime rnd tms orig 0 m).1.x - orig.x)
          ((waveRun orig turb phase mouseVel waveTime rnd tms orig 0 m).2.x) ≤ 3 / 50 ∧
        lyapV ((waveRun orig turb phase mouseVel waveTime rnd tms orig 0 m).1.y - orig.y)
          ((waveRun orig turb phase mouseVel waveTime rnd tms orig 0 m).2.y) ≤ 3 / 50 ∧
        lyapV ((waveRun orig turb phase mouseVel waveTime rnd tms orig 0 m).1.z - orig.z)
          ((waveRun orig turb phase mouseVel waveTime rnd tms orig 0 m).2.z) ≤ 3 / 50 := by
      intro m
      induction m with
      | zero =>
        refine ⟨?_, ?_, ?_⟩ <;> norm_num [lyapV, waveRun]
      | succ k ih =>
        obtain ⟨ihx, ihy, ihz⟩ := ih
        have hcomp := orig.normalize_comp_sq_le_one
        have hdef : waveRun orig turb phase mouseVel waveTime rnd tms orig 0 (k + 1)
            = waveStep false none mouseVel waveTime rnd orig turb phase (tms k)
                (waveRun orig turb phase mouseVel waveTime rnd tms orig 0 k).1
                (waveRun orig turb phase mouseVel waveTime rnd tms orig 0 k).2 := rfl
        refine ⟨?_, ?_, ?_⟩
        · refine lyapV_step
            ((waveRun orig turb phase mouseVel waveTime rnd tms orig 0 k).1.x - orig.x)
            ((waveRun orig turb phase mouseVel waveTime rnd tms orig 0 k).2.x)
            (Real.sin (tms k * 0.001 + phase) * 0.01 * orig.normalize.x) _ _
            ?_ ?_ ihx (breathing_sq _ _ hcomp.1)
          · rw [hdef]
            simp only [waveStep, waveInteractionForce_none]
            simp
          · rw [hdef]
            simp only [waveStep, waveInteractionForce_none]
            simp
            ring
        · refine lyapV_step
            ((waveRun orig turb phase mouseVel waveTime rnd tms orig 0 k).1.y - orig.y)
            ((waveRun orig turb phase mouseVel waveTime rnd tms orig 0 k).2.y)
            (Real.sin (tms k * 0.001 + phase) * 0.01 * orig.normalize.y) _ _
            ?_ ?_ ihy (breathing_sq _ _ hcomp.2.1)
          · rw [hdef]
            simp only [waveStep, waveInteractionForce_none]
            simp
          · rw [hdef]
            simp only [waveStep, waveInteractionForce_none]
            simp
            ring
        · refine lyapV_step
            ((waveRun orig turb phase mouseVel waveTime rnd tms orig 0 k).1.z - orig.z)
            ((waveRun orig turb phase mouseVel waveTime rnd tms orig 0 k).2.z)
            (Real.sin (tms k * 0.001 + phase) * 0.01 * orig.normalize.z) _ _
            ?_ ?_ ihz (breathing_sq _ _ hcomp.2.2)
          · rw [hdef]
            simp only [waveStep, waveInteractionForce_none]
            simp
          · rw [hdef]
            simp only [waveStep, waveInteractionForce_none]
            simp
            ring
    obtain ⟨hx, hy, hz⟩ := key n
    have hex : ((waveRun orig turb phase mouseVel waveTime rnd tms orig 0 n).1.x
        - orig.x) ^ 2 ≤ 3 / 25 := by
      have := sq_le_two_lyapV
        ((waveRun orig turb phase mouseVel waveTime rnd tms orig 0 n).1.x - orig.x)
        ((waveRun orig turb phase mouseVel waveTime rnd tms orig 0 n).2.x)
      linarith
    have hey : ((waveRun orig turb phase mouseVel waveTime rnd tms orig 0 n).1.y
        - orig.y) ^ 2 ≤ 3 / 25 := by
      have := sq_le_two_lyapV
        ((waveRun orig turb phase mouseVel waveTime rnd tms orig 0 n).1.y - orig.y)
        ((waveRun orig turb phase mouseVel waveTime rnd tms orig 0 n).2.y)
      linarith
    have hez : ((waveRun orig turb phase mouseVel waveTime rnd tms orig 0 n).1.z
        - orig.z) ^ 2 ≤ 3 / 25 := by
      have := sq_le_two_lyapV
        ((waveRun orig turb phase mouseVel waveTime rnd tms orig 0 n).1.z - orig.z)
        ((waveRun orig turb phase mouseVel waveTime rnd tms orig 0 n).2.z)
      linarith
    have hlsq : ((waveRun orig turb phase mouseVel waveTime rnd tms orig 0 n).1
        - orig).lengthSq ≤ 9 / 25 := by
      unfold V3.lengthSq
      simp only [V3.sub_x, V3.sub_y, V3.sub_z]
      nlinarith [hex, hey, hez]
    unfold V3.distanceTo V3.length
    calc Real.sqrt ((waveRun orig turb phase mouseVel waveTime rnd tms orig 0 n).1
          - orig).lengthSq
        ≤ Real.sqrt (9 / 25) := Real.sqrt_le_sqrt hlsq
      _ = 3 / 5 := by
          rw [show (9 / 25 : ℝ) = (3 / 5) ^ 2 from by norm_num,
            Real.sqrt_sq (by norm_num)]
  · induction n with
    | zero => rfl
    | succ k ih =>
      have hoff := impulseRun_none_offset orig orig k
      have hdef : (impulseRun orig orig none (k + 1)).1
          = (impulseStep orig (impulseRun orig orig none k).1
              (impulseRun orig orig none k).2).1 := rfl
      rw [hdef, hoff, ih]
      have h := impulseStep_none_sub_orig orig orig
      rw [V3.sub_self_v, V3.smul_zero_v] at h
      exact (V3.sub_eq_zero_iff_v _ _).mp h

/-- C1 witness: seven idle frames from rest at `(1,2,3)` stay within the
bound. -/
theorem c1_rest_invariance_witness :
    ((waveRun ⟨1, 2, 3⟩ 0 0 (0, 0) 0 0 (fun _ => 0) ⟨1, 2, 3⟩ 0 7).1).distanceTo
        ⟨1, 2, 3⟩ ≤ 3 / 5 ∧
    (impulseRun ⟨1, 2, 3⟩ ⟨1, 2, 3⟩ none 7).1 = ⟨1, 2, 3⟩ :=
  c1_rest_invariance ⟨1, 2, 3⟩ 0 0 0 0 (0, 0) (fun _ => 0) ⟨1, 2, 3⟩ 0 rfl rfl 7
